import Mathlib

/-!
Shallow embedding of the key-transforming map (`HashMap`) and the defaulting
map (`DefaultMap`) from `src/Data/HashMap.ts` and `src/Data/DefaultMap.ts` of
the ts-std-lib repository, together with theorems settling the spec claims.

The internal `Map<THashedKey, TValue>` of the source is an ES6 `Map`:
an insertion-ordered association store with SameValueZero key equality.
It is embedded as a `List (σ × α)` whose operations (`jsFind`, `jsSet`,
`jsDelete`, `jsMapOfList`) mirror ES6 `Map.get` / `Map.set` / `Map.delete`
and the `new Map(iterable)` constructor: `set` of a present key replaces the
value in place (the key keeps its original position), `set` of an absent key
appends, and constructing from an iterable inserts pairs left to right.

JavaScript truthiness, which the source relies on in `HashMap.get` and
`HashMap.getOr` (`if (!value)`), is embedded as an explicit `truthy`
function on values; the concrete type `JSValue` realizes it for the
primitive values used in counterexamples.
-/

namespace TsStd

/-- The `identity` function of `src/identity.ts`: returns its argument. -/
def identity {T : Type} (value : T) : T :=
  value

/-- A small model of primitive JavaScript runtime values, enough to expose
the truthy / falsy distinction the source code depends on. -/
inductive JSValue where
  | num (n : Int)
  | str (s : String)
  | bool (b : Bool)
deriving DecidableEq

/-- JavaScript truthiness of a `JSValue`: `0`, the empty string and `false`
are falsy, everything else is truthy. -/
def JSValue.truthy : JSValue → Bool
  | .num n => n != 0
  | .str s => s != ""
  | .bool b => b

section JsMap

variable {σ α : Type} [DecidableEq σ]

/-- ES6 `Map.prototype.get` on the insertion-ordered store: the value of the
first (and, in a real `Map`, only) entry with the given key. -/
def jsFind : List (σ × α) → σ → Option α
  | [], _ => none
  | (k', v) :: rest, k => if k' = k then some v else jsFind rest k

/-- ES6 `Map.prototype.set`: replace the value in place when the key is
present (the entry keeps its position), append a new entry otherwise. -/
def jsSet : List (σ × α) → σ → α → List (σ × α)
  | [], k, v => [(k, v)]
  | (k', v') :: rest, k, v =>
    if k' = k then (k', v) :: rest else (k', v') :: jsSet rest k v

/-- ES6 `Map.prototype.delete` restricted to its effect on the store:
remove the entry with the given key when present. -/
def jsDelete : List (σ × α) → σ → List (σ × α)
  | [], _ => []
  | (k', v') :: rest, k => if k' = k then rest else (k', v') :: jsDelete rest k

/-- The ES6 `new Map(iterable)` constructor: starting from an empty store,
insert the supplied pairs left to right with `jsSet`, so a later pair with a
duplicate key overwrites the value of an earlier one. -/
def jsMapOfList (l : List (σ × α)) : List (σ × α) :=
  l.foldl (fun acc p => jsSet acc p.1 p.2) []

end JsMap

/-- `HashMap<TKey, TValue, THashedKey>` of `src/Data/HashMap.ts`: the hashing
function, the internal ES6 `Map` (field `_map` of the source, embedded as an
insertion-ordered store), and the diagnostic instance name. -/
structure HashMap (κ σ α : Type) where
  hash : κ → σ
  store : List (σ × α)
  name : String

/-- `HashMapMissingKeyError`: carries the map that raised it and the
offending logical key. -/
structure MissingKeyError (κ σ α : Type) where
  map : HashMap κ σ α
  key : κ

namespace HashMap

variable {κ σ α : Type} [DecidableEq σ]

/-- `HashMap.empty(options)`: identity hash, empty store. -/
def empty (name : String) : HashMap κ κ α :=
  ⟨identity, [], name⟩

variable [DecidableEq κ]

/-- `HashMap.emptyWithCustomHash(options)`. -/
def emptyWithCustomHash (hash : κ → σ) (name : String) : HashMap κ σ α :=
  ⟨hash, [], name⟩

/-- `HashMap.fromCustomEntries(entries, options)`: the store is
`new Map(entries.map(([k, v]) => [options.hash(k), v]))`. -/
def fromCustomEntries (entries : List (κ × α)) (hash : κ → σ) (name : String) :
    HashMap κ σ α :=
  ⟨hash, jsMapOfList (entries.map (fun p => (hash p.1, p.2))), name⟩

/-- `HashMap.fromEntries(entries, options)`: identity hash. -/
def fromEntries (entries : List (κ × α)) (name : String) : HashMap κ κ α :=
  ⟨identity, jsMapOfList (entries.map (fun p => (p.1, p.2))), name⟩

/-- `clear()`: `this._map.clear()`. -/
def clear (m : HashMap κ σ α) : HashMap κ σ α :=
  { m with store := [] }

/-- `has(key)`: `this._map.has(this.hash(key))`, an existence check on the
store that never looks at the stored value. -/
def has (m : HashMap κ σ α) (key : κ) : Bool :=
  (jsFind m.store (m.hash key)).isSome

/-- `get(key)`: `const value = this._map.get(this.hash(key)); if (!value)
throw new HashMapMissingKeyError(this, key); return value;`. The `!value`
truthiness test also rejects a present entry whose stored value is falsy. -/
def get (truthy : α → Bool) (m : HashMap κ σ α) (key : κ) :
    Except (MissingKeyError κ σ α) α :=
  match jsFind m.store (m.hash key) with
  | some value => if truthy value then .ok value else .error ⟨m, key⟩
  | none => .error ⟨m, key⟩

/-- `getOr(key, defaultValue)`: same lookup and `!value` truthiness test as
`get`, returning the fallback instead of throwing (specialized, as the
claims allow, to a fallback of the value type). -/
def getOr (truthy : α → Bool) (m : HashMap κ σ α) (key : κ)
    (defaultValue : α) : α :=
  match jsFind m.store (m.hash key) with
  | some value => if truthy value then value else defaultValue
  | none => defaultValue

/-- `set(key, value)`: `this._map.set(this.hash(key), value)`. -/
def set (m : HashMap κ σ α) (key : κ) (value : α) : HashMap κ σ α :=
  { m with store := jsSet m.store (m.hash key) value }

/-- `delete(key)`: throws `MissingKeyError` when `!this.has(key)`, otherwise
`this._map.delete(this.hash(key))`. -/
def delete (m : HashMap κ σ α) (key : κ) :
    Except (MissingKeyError κ σ α) (HashMap κ σ α) :=
  if !(m.has key) then .error ⟨m, key⟩
  else .ok { m with store := jsDelete m.store (m.hash key) }

/-- `deleteIfExists(key)`: returns `false` (no effect) when `!this.has(key)`,
otherwise performs `this.delete(key)` and returns `true`. -/
def deleteIfExists (m : HashMap κ σ α) (key : κ) : Bool × HashMap κ σ α :=
  if !(m.has key) then (false, m)
  else (true, { m with store := jsDelete m.store (m.hash key) })

/-- `entries()`: the `[storage key, value]` pairs of the internal store, in
its insertion order. -/
def entries (m : HashMap κ σ α) : List (σ × α) :=
  m.store

/-- `keys()`: the storage keys of the internal store, in insertion order. -/
def keys (m : HashMap κ σ α) : List σ :=
  m.store.map Prod.fst

/-- `values()`: the values of the internal store, in insertion order. -/
def values (m : HashMap κ σ α) : List α :=
  m.store.map Prod.snd

/-- The loop body of `filter`: walk `this.entries()` accumulating the kept
pairs in `acc` (the `entries` array of the source); the index argument
handed to the callback is `entries.length`, the number of pairs kept so
far. The type `ω` of the receiver argument is a parameter so that the same
loop serves the heap-addressed model below. -/
def filterLoop {ω : Type} (fn : α → σ → Nat → ω → Bool) (original : ω) :
    List (σ × α) → List (σ × α) → List (σ × α)
  | acc, [] => acc
  | acc, (key, value) :: rest =>
    if fn value key acc.length original then
      filterLoop fn original (acc ++ [(key, value)]) rest
    else
      filterLoop fn original acc rest

/-- `filter(fn)`: collect the kept pairs, then
`new HashMap(this.hash, new Map(entries), this.name)`. -/
def filter (m : HashMap κ σ α)
    (fn : α → σ → Nat → HashMap κ σ α → Bool) : HashMap κ σ α :=
  ⟨m.hash, jsMapOfList (filterLoop fn m [] m.entries), m.name⟩

/-- The loop body of `map`: every visited pair pushes
`fn(value, key, entries.length, this)` onto the `entries` array. -/
def mapLoop {ω : Type} (fn : α → σ → Nat → ω → σ × α) (original : ω) :
    List (σ × α) → List (σ × α) → List (σ × α)
  | acc, [] => acc
  | acc, (key, value) :: rest =>
    mapLoop fn original (acc ++ [fn value key acc.length original]) rest

/-- `map(fn)`: collect the transformed pairs, then
`new HashMap(this.hash, new Map(entries), this.name)`. -/
def map (m : HashMap κ σ α)
    (fn : α → σ → Nat → HashMap κ σ α → σ × α) : HashMap κ σ α :=
  ⟨m.hash, jsMapOfList (mapLoop fn m [] m.entries), m.name⟩

/-- `mapKeys(fn)`: implemented through `map`, keeping each value. -/
def mapKeys (m : HashMap κ σ α)
    (fn : σ → α → Nat → HashMap κ σ α → σ) : HashMap κ σ α :=
  m.map (fun value key index original => (fn key value index original, value))

/-- `mapValues(fn)`: implemented through `map`, keeping each key. -/
def mapValues (m : HashMap κ σ α)
    (fn : α → σ → Nat → HashMap κ σ α → α) : HashMap κ σ α :=
  m.map (fun value key index original => (key, fn value key index original))

end HashMap

/-- The `defaultValue` configuration of `src/Data/DefaultMap.ts`: a tagged
union of a generator function (`type: "function"`) and a constant
(`type: "value"`). `TDefaultValue` is instantiated at `TValue`, as the
claims allow. -/
inductive DefaultValue (κ α : Type) where
  | func (value : κ → α)
  | value (v : α)

/-- The branch `this.defaultValue.type === "function" ?
this.defaultValue.value(key) : this.defaultValue.value` of
`DefaultMap.get`. -/
def DefaultValue.compute : DefaultValue κ α → κ → α
  | .func f, key => f key
  | .value v, _ => v

/-- `DefaultMap<TKey, TValue, THashedKey>` of `src/Data/DefaultMap.ts`:
`extends HashMap` and adds the `defaultValue` field. The class overrides
only `get`; every other operation, including `filter` / `map` / `mapKeys` /
`mapValues`, is inherited from `HashMap` and is therefore used through
`toHashMap` in this embedding. -/
structure DefaultMap (κ σ α : Type) extends HashMap κ σ α where
  defaultValue : DefaultValue κ α

namespace DefaultMap

variable {κ σ α : Type} [DecidableEq σ]

/-- `DefaultMap.empty(options)`: identity hash, empty store. -/
def empty (defaultValue : DefaultValue κ α) (name : String) :
    DefaultMap κ κ α :=
  ⟨⟨identity, [], name⟩, defaultValue⟩

/-- `DefaultMap.emptyWithCustomHash(options)`. -/
def emptyWithCustomHash (defaultValue : DefaultValue κ α) (hash : κ → σ)
    (name : String) : DefaultMap κ σ α :=
  ⟨⟨hash, [], name⟩, defaultValue⟩

/-- `DefaultMap.fromCustomEntries(entries, options)`. -/
def fromCustomEntries (entries : List (κ × α))
    (defaultValue : DefaultValue κ α) (hash : κ → σ) (name : String) :
    DefaultMap κ σ α :=
  ⟨⟨hash, jsMapOfList (entries.map (fun p => (hash p.1, p.2))), name⟩,
    defaultValue⟩

variable [DecidableEq κ]

/-- `DefaultMap.fromEntries(entries, options)`: identity hash. -/
def fromEntries (entries : List (κ × α)) (defaultValue : DefaultValue κ α)
    (name : String) : DefaultMap κ κ α :=
  ⟨⟨identity, jsMapOfList (entries.map (fun p => (p.1, p.2))), name⟩,
    defaultValue⟩

/-- `DefaultMap.get(key)`: when `!this.has(key)`, compute the default,
`this.set(key, defaultValue)` (an observable mutation, returned here as the
second component) and return the default; otherwise `super.get(key)` with
the map unchanged. -/
def get (truthy : α → Bool) (m : DefaultMap κ σ α) (key : κ) :
    Except (MissingKeyError κ σ α) α × DefaultMap κ σ α :=
  if !(m.toHashMap.has key) then
    let defaultValue := m.defaultValue.compute key
    (.ok defaultValue,
      { m with toHashMap := m.toHashMap.set key defaultValue })
  else
    (m.toHashMap.get truthy key, m)

end DefaultMap

/-!
Heap-addressed model, for the frame claim about derivation operations.

A `Heap` assigns to each address the contents of the ES6 `Map` object living
there; a `HashMapRef` is a `HashMap` object whose internal `_map` field is a
reference (an address) into the heap, exactly as in JavaScript. The mutating
operations write only through the receiver's address, and the derivation
operations build `new Map(entries)` — a fresh allocation — for the derived
object while sharing the `hash` function and `name` by reference.
-/

/-- The part of the JavaScript heap that matters here: the next fresh
address and the contents of every allocated ES6 `Map` object. -/
structure Heap (σ α : Type) where
  next : Nat
  mem : Nat → List (σ × α)

/-- Allocate a fresh `Map` object holding `l`; returns its address. -/
def Heap.alloc (h : Heap σ α) (l : List (σ × α)) : Nat × Heap σ α :=
  (h.next, ⟨h.next + 1, fun a => if a = h.next then l else h.mem a⟩)

/-- Overwrite the contents of the `Map` object at address `a`. -/
def Heap.write (h : Heap σ α) (a : Nat) (l : List (σ × α)) : Heap σ α :=
  ⟨h.next, fun b => if b = a then l else h.mem b⟩

/-- A `HashMap` object whose `_map` field is an address into the heap. -/
structure HashMapRef (κ σ α : Type) where
  hash : κ → σ
  store : Nat
  name : String

namespace HashMapRef

variable {κ σ α : Type} [DecidableEq σ]

/-- The object points at an allocated `Map`. -/
def valid (h : Heap σ α) (m : HashMapRef κ σ α) : Prop :=
  m.store < h.next

/-- `set(key, value)` through the reference: mutates only the receiver's
`Map` object. -/
def setRef (h : Heap σ α) (m : HashMapRef κ σ α) (key : κ) (value : α) :
    Heap σ α :=
  h.write m.store (jsSet (h.mem m.store) (m.hash key) value)

/-- `clear()` through the reference. -/
def clearRef (h : Heap σ α) (m : HashMapRef κ σ α) : Heap σ α :=
  h.write m.store []

/-- `deleteIfExists(key)` through the reference. -/
def deleteIfExistsRef (h : Heap σ α) (m : HashMapRef κ σ α) (key : κ) :
    Bool × Heap σ α :=
  if (jsFind (h.mem m.store) (m.hash key)).isSome then
    (true, h.write m.store (jsDelete (h.mem m.store) (m.hash key)))
  else
    (false, h)

/-- `filter(fn)` through the reference: run the filter loop over the
receiver's entries, then `new Map(entries)` is a fresh allocation and
`new HashMap(this.hash, ..., this.name)` shares `hash` and `name`. -/
def filterRef (h : Heap σ α) (m : HashMapRef κ σ α)
    (fn : α → σ → Nat → HashMapRef κ σ α → Bool) :
    HashMapRef κ σ α × Heap σ α :=
  let kept := HashMap.filterLoop fn m [] (h.mem m.store)
  let fresh := h.alloc (jsMapOfList kept)
  (⟨m.hash, fresh.1, m.name⟩, fresh.2)

/-- `map(fn)` through the reference, analogously to `filterRef`. -/
def mapRef (h : Heap σ α) (m : HashMapRef κ σ α)
    (fn : α → σ → Nat → HashMapRef κ σ α → σ × α) :
    HashMapRef κ σ α × Heap σ α :=
  let pushed := HashMap.mapLoop fn m [] (h.mem m.store)
  let fresh := h.alloc (jsMapOfList pushed)
  (⟨m.hash, fresh.1, m.name⟩, fresh.2)

end HashMapRef

/-- Spec-side characterization, following the spec's words "the later
pair's value wins": the value of the last pair in `l` whose (storage) key is
`k`, if any. Used to compare `jsMapOfList` against the spec. -/
def lastOccurrenceValue [DecidableEq σ] : List (σ × α) → σ → Option α
  | [], _ => none
  | (k', v) :: rest, k =>
    match lastOccurrenceValue rest k with
    | some w => some w
    | none => if k' = k then some v else none

/-- Spec-side formulation of the filter traversal with an explicit counter:
the counter advances only when an entry is kept, so each kept entry sees the
number of entries kept before it (its position in the filtered result). -/
def filterWithKeptCount {σ α ω : Type} (fn : α → σ → Nat → ω → Bool)
    (original : ω) : List (σ × α) → Nat → List (σ × α)
  | [], _ => []
  | (key, value) :: rest, n =>
    if fn value key n original then
      (key, value) :: filterWithKeptCount fn original rest (n + 1)
    else
      filterWithKeptCount fn original rest n

section JsMapLemmas

variable {σ α : Type} [DecidableEq σ]

theorem jsFind_eq_none_iff {l : List (σ × α)} {k : σ} :
    jsFind l k = none ↔ k ∉ l.map Prod.fst := by
  induction l with
  | nil => simp [jsFind]
  | cons p rest ih =>
    obtain ⟨k1, v1⟩ := p
    by_cases hk : k1 = k
    · subst hk
      simp [jsFind]
    · simp only [jsFind, if_neg hk, List.map_cons, List.mem_cons, ih]
      constructor
      · intro h hmem
        rcases hmem with hmem | hmem
        · exact hk hmem.symm
        · exact h hmem
      · intro h hmem
        exact h (Or.inr hmem)

theorem jsFind_isSome_iff {l : List (σ × α)} {k : σ} :
    (jsFind l k).isSome = true ↔ k ∈ l.map Prod.fst := by
  rw [Option.isSome_iff_ne_none]
  constructor
  · intro h
    by_contra hmem
    exact h (jsFind_eq_none_iff.mpr hmem)
  · intro h hnone
    exact (jsFind_eq_none_iff.mp hnone) h

theorem jsSet_of_find_none {l : List (σ × α)} {k : σ} (v : α)
    (h : jsFind l k = none) : jsSet l k v = l ++ [(k, v)] := by
  induction l with
  | nil => rfl
  | cons p rest ih =>
    obtain ⟨k1, v1⟩ := p
    simp only [jsFind] at h
    by_cases hk : k1 = k
    · rw [if_pos hk] at h
      exact absurd h (by simp)
    · rw [if_neg hk] at h
      simp [jsSet, hk, ih h]

theorem jsFind_jsSet_self {l : List (σ × α)} (k : σ) (v : α) :
    jsFind (jsSet l k v) k = some v := by
  induction l with
  | nil => simp [jsSet, jsFind]
  | cons p rest ih =>
    obtain ⟨k1, v1⟩ := p
    by_cases hk : k1 = k
    · simp [jsSet, jsFind, hk]
    · simp [jsSet, jsFind, hk, ih]

theorem jsFind_jsSet_ne {l : List (σ × α)} {k1 k2 : σ} (v : α)
    (hk : k1 ≠ k2) : jsFind (jsSet l k1 v) k2 = jsFind l k2 := by
  induction l with
  | nil => simp [jsSet, jsFind, hk]
  | cons p rest ih =>
    obtain ⟨k', v'⟩ := p
    by_cases h1 : k' = k1
    · subst h1
      simp [jsSet, jsFind, hk]
    · by_cases h2 : k' = k2
      · subst h2
        simp [jsSet, jsFind, h1, Ne.symm hk]
      · simp [jsSet, jsFind, h1, h2, ih]

theorem jsSet_map_fst_of_find_some {l : List (σ × α)} {k : σ} (v : α)
    (h : (jsFind l k).isSome = true) :
    (jsSet l k v).map Prod.fst = l.map Prod.fst := by
  induction l with
  | nil => simp [jsFind] at h
  | cons p rest ih =>
    obtain ⟨k1, v1⟩ := p
    by_cases hk : k1 = k
    · simp [jsSet, hk]
    · simp only [jsFind, if_neg hk] at h
      simp [jsSet, hk, ih h]

theorem jsSet_length_of_find_some {l : List (σ × α)} {k : σ} (v : α)
    (h : (jsFind l k).isSome = true) : (jsSet l k v).length = l.length := by
  have := jsSet_map_fst_of_find_some v h
  have h1 : ((jsSet l k v).map Prod.fst).length = (l.map Prod.fst).length :=
    by rw [this]
  simpa using h1

theorem jsSet_map_fst_mem {l : List (σ × α)} {k x : σ} {v : α}
    (hx : x ∈ (jsSet l k v).map Prod.fst) :
    x ∈ l.map Prod.fst ∨ x = k := by
  induction l with
  | nil =>
    simp [jsSet] at hx
    exact Or.inr hx
  | cons p rest ih =>
    obtain ⟨k1, v1⟩ := p
    by_cases hk : k1 = k
    · simp only [jsSet, if_pos hk, List.map_cons, List.mem_cons] at hx
      rcases hx with hx | hx
      · exact Or.inl (by simp [hx])
      · exact Or.inl (by simp [hx])
    · simp only [jsSet, if_neg hk, List.map_cons, List.mem_cons] at hx
      rcases hx with hx | hx
      · exact Or.inl (by simp [hx])
      · rcases ih hx with h | h
        · exact Or.inl (by simp [h])
        · exact Or.inr h

theorem jsSet_nodup {l : List (σ × α)} (k : σ) (v : α)
    (h : (l.map Prod.fst).Nodup) : ((jsSet l k v).map Prod.fst).Nodup := by
  induction l with
  | nil => simp [jsSet]
  | cons p rest ih =>
    obtain ⟨k1, v1⟩ := p
    simp only [List.map_cons, List.nodup_cons] at h
    by_cases hk : k1 = k
    · simp only [jsSet, if_pos hk, List.map_cons, List.nodup_cons]
      exact h
    · simp only [jsSet, if_neg hk, List.map_cons, List.nodup_cons]
      refine ⟨?_, ih h.2⟩
      intro hmem
      rcases jsSet_map_fst_mem hmem with hm | hm
      · exact h.1 hm
      · exact hk hm

theorem jsMapOfList_foldl_nodup {l : List (σ × α)} {acc : List (σ × α)}
    (h : (acc.map Prod.fst).Nodup) :
    (((l.foldl (fun acc p => jsSet acc p.1 p.2) acc)).map Prod.fst).Nodup := by
  induction l generalizing acc with
  | nil => simpa using h
  | cons p rest ih =>
    simp only [List.foldl_cons]
    exact ih (jsSet_nodup p.1 p.2 h)

theorem jsMapOfList_nodup (l : List (σ × α)) :
    ((jsMapOfList l).map Prod.fst).Nodup :=
  jsMapOfList_foldl_nodup (by simp)

theorem jsFind_foldl_jsSet {l : List (σ × α)} {acc : List (σ × α)} {k : σ} :
    jsFind (l.foldl (fun acc p => jsSet acc p.1 p.2) acc) k =
      match lastOccurrenceValue l k with
      | some w => some w
      | none => jsFind acc k := by
  induction l generalizing acc with
  | nil => simp [lastOccurrenceValue]
  | cons p rest ih =>
    obtain ⟨k1, v1⟩ := p
    simp only [List.foldl_cons, ih, lastOccurrenceValue]
    cases hrest : lastOccurrenceValue rest k with
    | some w => simp
    | none =>
      by_cases hk : k1 = k
      · subst hk
        simp [jsFind_jsSet_self]
      · simp [hk, jsFind_jsSet_ne v1 hk]

theorem jsFind_jsMapOfList {l : List (σ × α)} {k : σ} :
    jsFind (jsMapOfList l) k = lastOccurrenceValue l k := by
  rw [jsMapOfList, jsFind_foldl_jsSet]
  cases h : lastOccurrenceValue l k with
  | some w => simp
  | none => simp [jsFind]

theorem jsMapOfList_foldl_eq_append {l : List (σ × α)} {acc : List (σ × α)}
    (h : ((acc ++ l).map Prod.fst).Nodup) :
    l.foldl (fun acc p => jsSet acc p.1 p.2) acc = acc ++ l := by
  induction l generalizing acc with
  | nil => simp
  | cons p rest ih =>
    obtain ⟨k1, v1⟩ := p
    have hmap : ((acc ++ (k1, v1) :: rest).map Prod.fst)
        = acc.map Prod.fst ++ k1 :: rest.map Prod.fst := by simp
    rw [hmap] at h
    have hnone : jsFind acc k1 = none := by
      rw [jsFind_eq_none_iff]
      intro hmem
      exact (List.nodup_append.mp h).2.2 hmem (by simp)
    simp only [List.foldl_cons]
    rw [jsSet_of_find_none v1 hnone]
    have h2 : (((acc ++ [(k1, v1)]) ++ rest).map Prod.fst).Nodup := by
      simpa using h
    rw [ih h2]
    simp

theorem jsMapOfList_eq_self {l : List (σ × α)}
    (h : (l.map Prod.fst).Nodup) : jsMapOfList l = l := by
  have := @jsMapOfList_foldl_eq_append σ α _ l [] (by simpa using h)
  simpa [jsMapOfList] using this

end JsMapLemmas

/-- A thrown `MissingKeyError`, embedded as the `error` case of `Except`. -/
def raised {ε β : Type} : Except ε β → Bool
  | .error _ => true
  | .ok _ => false

section FilterLemmas

variable {σ α ω : Type}

theorem filterLoop_eq_append (fn : α → σ → Nat → ω → Bool) (original : ω)
    (l acc : List (σ × α)) :
    HashMap.filterLoop fn original acc l
      = acc ++ filterWithKeptCount fn original l acc.length := by
  induction l generalizing acc with
  | nil => simp [HashMap.filterLoop, filterWithKeptCount]
  | cons p rest ih =>
    obtain ⟨key, value⟩ := p
    by_cases hfn : fn value key acc.length original
    · simp only [HashMap.filterLoop, filterWithKeptCount, if_pos hfn, ih]
      simp
    · simp only [HashMap.filterLoop, filterWithKeptCount, if_neg hfn, ih]

theorem filterWithKeptCount_sublist (fn : α → σ → Nat → ω → Bool)
    (original : ω) (l : List (σ × α)) (n : Nat) :
    (filterWithKeptCount fn original l n).Sublist l := by
  induction l generalizing n with
  | nil => simp [filterWithKeptCount]
  | cons p rest ih =>
    obtain ⟨key, value⟩ := p
    by_cases hfn : fn value key n original
    · simpa [filterWithKeptCount, if_pos hfn] using
        List.Sublist.cons₂ (key, value) (ih (n + 1))
    · simpa [filterWithKeptCount, if_neg hfn] using
        List.Sublist.cons (key, value) (ih n)

end FilterLemmas

/-! ### Concrete instances used by the claim theorems and witnesses -/

/-- A `HashMap` holding the falsy-but-defined value `0` under key `"a"`. -/
def falsyStoredHM : HashMap String String JSValue :=
  HashMap.fromEntries [("a", JSValue.num 0)] "unknown"

/-- A `DefaultMap` (constant default `1`) holding the falsy-but-defined
value `0` under key `"a"`. -/
def falsyStoredDM : DefaultMap String String JSValue :=
  DefaultMap.fromEntries [("a", JSValue.num 0)]
    (.value (JSValue.num 1)) "unknown"

/-- The spec's concrete scenario: an empty `DefaultMap` whose generator
default is `(key) => key.length`. -/
def catDogMap : DefaultMap String String Int :=
  DefaultMap.empty (.func fun key => (key.length : Int)) "unknown"

/-- JavaScript truthiness of a primitive number value, for maps whose
values are embedded directly as `Int`. -/
def intTruthy : Int → Bool :=
  fun n => n != 0

/-- A `DefaultMap` with constant default `"X"`, used for the derivation
claims. -/
def xDefaultMap : DefaultMap String String JSValue :=
  DefaultMap.fromEntries [("1", JSValue.str "one")]
    (.value (JSValue.str "X")) "unknown"

/-- A small concrete `HashMap` used by witnesses. -/
def smallHM : HashMap Nat Nat Nat :=
  HashMap.fromEntries [(1, 2)] "unknown"

/-! ### Claim theorems -/

/-- C1. The claim states that after `set(k, v)` the call `get(k)` returns
`v` without raising and `has(k)` is `true`, for every value `v`. The code
violates this at any falsy value: `HashMap.get` tests `!value`, so after
`set("a", 0)` the call `get("a")` raises `MissingKeyError` even though
`has("a")` is `true`; with a truthy value (`7`) the round trip does hold.
This theorem evaluates the code at that failing input. -/
theorem setThenGet_falsy_value_raises :
    ((HashMap.empty "unknown" : HashMap String String JSValue).set "a"
        (.num 0)).has "a" = true
    ∧ raised (((HashMap.empty "unknown" : HashMap String String JSValue).set
        "a" (.num 0)).get JSValue.truthy "a") = true
    ∧ ((HashMap.empty "unknown" : HashMap String String JSValue).set "a"
        (.num 7)).get JSValue.truthy "a" = .ok (.num 7) :=
  ⟨rfl, rfl, rfl⟩

/-- C2. The claim states that a present entry with a falsy-but-defined
value is treated as present: `get` returns it and `getOr` ignores the
fallback, presence being decided by an explicit existence check. The code
decides presence of the value by the truthiness test `!value` in both `get`
and `getOr`: with `0` stored under `"a"`, `get("a")` raises and
`getOr("a", 5)` returns the fallback `5`, even though `has("a")` is `true`.
This theorem evaluates the code at that failing input. -/
theorem get_getOr_truthiness_on_falsy_value :
    falsyStoredHM.has "a" = true
    ∧ raised (falsyStoredHM.get JSValue.truthy "a") = true
    ∧ falsyStoredHM.getOr JSValue.truthy "a" (.num 5) = .num 5 :=
  ⟨rfl, rfl, rfl⟩

/-- C3. The claim states that `DefaultMap.get` never raises `MissingKey`.
When the entry is present, `DefaultMap.get` falls through to
`super.get(key)`, whose `!value` test raises on a falsy stored value: with
`0` stored under `"a"` (so `has("a")` is `true`), `get("a")` raises
`MissingKeyError`. This theorem evaluates the code at that failing
input. -/
theorem defaultMap_get_raises_on_falsy_stored_value :
    falsyStoredDM.toHashMap.has "a" = true
    ∧ raised (falsyStoredDM.get JSValue.truthy "a").1 = true :=
  ⟨rfl, rfl⟩

/-- C4. `DefaultMap.get` on a missing key computes the default (constant,
or generator applied to the logical key), inserts it via `set` — so the
entry afterwards exists, at the end of the iteration order — and returns
it; concretely, on an empty `DefaultMap` with generator `(key) =>
key.length`, `get("cat-dog")` returns `7`, the keys sequence afterwards is
exactly `["cat-dog"]`, and a second `get` of the same key returns the
stored value again. -/
theorem defaultMap_get_miss_inserts_default :
    (∀ (κ σ α : Type) [DecidableEq σ] (truthy : α → Bool)
        (m : DefaultMap κ σ α) (key : κ),
        m.toHashMap.has key = false →
          (m.get truthy key).1 = .ok (m.defaultValue.compute key)
          ∧ (m.get truthy key).2.toHashMap
              = m.toHashMap.set key (m.defaultValue.compute key)
          ∧ (m.get truthy key).2.defaultValue = m.defaultValue
          ∧ (m.get truthy key).2.toHashMap.has key = true
          ∧ (m.get truthy key).2.toHashMap.keys
              = m.toHashMap.keys ++ [m.toHashMap.hash key])
    ∧ ((catDogMap.get intTruthy "cat-dog").1 = .ok 7
        ∧ (catDogMap.get intTruthy "cat-dog").2.toHashMap.keys = ["cat-dog"]
        ∧ ((catDogMap.get intTruthy "cat-dog").2.get intTruthy
            "cat-dog").1 = .ok 7
        ∧ ((catDogMap.get intTruthy "cat-dog").2.get intTruthy
            "cat-dog").2 = (catDogMap.get intTruthy "cat-dog").2) := by
  constructor
  · intro κ σ α inst truthy m key h
    have hnone : jsFind m.toHashMap.store (m.toHashMap.hash key) = none := by
      have hs : (jsFind m.toHashMap.store (m.toHashMap.hash key)).isSome
          = false := h
      cases hfind : jsFind m.toHashMap.store (m.toHashMap.hash key) with
      | none => rfl
      | some v => rw [hfind] at hs; simp at hs
    refine ⟨?_, ?_, ?_, ?_, ?_⟩
    · simp [DefaultMap.get, h]
    · simp [DefaultMap.get, h]
    · simp [DefaultMap.get, h]
    · simp [DefaultMap.get, HashMap.has, hnone, HashMap.set,
        jsFind_jsSet_self]
    · simp [DefaultMap.get, h, HashMap.keys, HashMap.set,
        jsSet_of_find_none _ hnone]
  · exact ⟨rfl, rfl, rfl, rfl⟩

/-- Witness for the hypothesis of the universal part of
`defaultMap_get_miss_inserts_default`, at the concrete generator map and
the missing key `"x"`. -/
theorem defaultMap_get_miss_inserts_default_w :
    catDogMap.toHashMap.has "x" = false
    ∧ (catDogMap.get intTruthy "x").1
        = .ok (catDogMap.defaultValue.compute "x") :=
  ⟨rfl, (defaultMap_get_miss_inserts_default.1 String String Int intTruthy
    catDogMap "x" rfl).1⟩

/-- C5. The claim states that `filter` / `map` on a `DefaultMap` carry the
default specification forward, so `get` of a missing key on the derived map
returns the default `"X"`. `src/Data/DefaultMap.ts` overrides none of the
derivation operations, so they are inherited from `HashMap` and return a
plain `HashMap` without any default: `get("missing")` on the derived map
raises `MissingKeyError` instead of returning `"X"` (which is what the
original map's default would have produced). This theorem evaluates the
code at that failing input. -/
theorem defaultMap_derivations_drop_default :
    raised ((xDefaultMap.toHashMap.filter (fun _ _ _ _ => true)).get
        JSValue.truthy "missing") = true
    ∧ raised ((xDefaultMap.toHashMap.map (fun value key _ _ =>
        (key, value))).get JSValue.truthy "missing") = true
    ∧ xDefaultMap.defaultValue.compute "missing" = .str "X" :=
  ⟨rfl, rfl, rfl⟩

/-- C6. Missing-key symmetry: for a key that is not present, `get` raises
`MissingKey`, `getOr` returns the fallback, `delete` raises `MissingKey`,
and `deleteIfExists` returns `false` leaving the map unchanged. -/
theorem hashMap_missing_key_symmetry {κ σ α : Type} [DecidableEq σ]
    (truthy : α → Bool) (m : HashMap κ σ α) (key : κ) (d : α)
    (h : m.has key = false) :
    raised (m.get truthy key) = true
    ∧ m.getOr truthy key d = d
    ∧ m.delete key = .error ⟨m, key⟩
    ∧ m.deleteIfExists key = (false, m) := by
  have hnone : jsFind m.store (m.hash key) = none := by
    have hs : (jsFind m.store (m.hash key)).isSome = false := h
    cases hfind : jsFind m.store (m.hash key) with
    | none => rfl
    | some v => rw [hfind] at hs; simp at hs
  refine ⟨?_, ?_, ?_, ?_⟩
  · simp [raised, HashMap.get, hnone]
  · simp [HashMap.getOr, hnone]
  · simp [HashMap.delete, h]
  · simp [HashMap.deleteIfExists, h]

/-- Witness for `hashMap_missing_key_symmetry` at a concrete map and
missing key. -/
theorem hashMap_missing_key_symmetry_w :
    smallHM.has 3 = false
    ∧ smallHM.getOr (fun _ => true) 3 9 = 9
    ∧ smallHM.deleteIfExists 3 = (false, smallHM) :=
  ⟨rfl,
    (hashMap_missing_key_symmetry (fun _ => true) smallHM 3 9 (by rfl)).2.1,
    (hashMap_missing_key_symmetry (fun _ => true) smallHM 3 9
      (by rfl)).2.2.2⟩

/-- The map and discriminating predicate of the filter-position
counterexample: the predicate keeps exactly the entry whose position
argument is `1`. -/
def idxMap : HashMap Nat Nat String :=
  HashMap.fromEntries [(1, "one"), (2, "two")] "unknown"

/-- Predicate depending only on the position argument: keep position `1`. -/
def idxPred : String → Nat → Nat → HashMap Nat Nat String → Bool :=
  fun _ _ index _ => index == 1

/-- C7, counterexample. In the pre-filter traversal of `idxMap` the entry
`(2, "two")` has zero-based position `1`, so the predicate applied as the
claim describes — `(value, key, pre-filter position, receiver)` — returns
`true` on it; yet `filter` keeps nothing, because the position it actually
passes is `entries.length`, the number of entries kept so far, which is
still `0` when `(2, "two")` is visited. -/
theorem filter_position_cex :
    idxPred "two" 2 1 idxMap = true
    ∧ idxMap.entries = [(1, "one"), (2, "two")]
    ∧ (idxMap.filter idxPred).entries = [] :=
  ⟨rfl, rfl, rfl⟩

/-- C7, amended. `filter` keeps exactly the entries on which the predicate
returns `true`, but the position argument passed for each visited entry is
the number of entries kept so far (the zero-based index the entry would
occupy in the filtered result), advancing only when an entry is kept — not
the pre-filter traversal index; the fourth argument is the receiver
itself. `filterWithKeptCount` is that traversal written with an explicit
counter. -/
theorem filter_kept_count_position {κ σ α : Type} [DecidableEq σ]
    (m : HashMap κ σ α) (fn : α → σ → Nat → HashMap κ σ α → Bool)
    (h : (m.store.map Prod.fst).Nodup) :
    (m.filter fn).entries = filterWithKeptCount fn m m.entries 0 := by
  have hsub : ((filterWithKeptCount fn m m.entries 0).map
      Prod.fst).Sublist (m.entries.map Prod.fst) :=
    List.Sublist.map Prod.fst (filterWithKeptCount_sublist fn m m.entries 0)
  have hnodup : ((filterWithKeptCount fn m m.entries 0).map
      Prod.fst).Nodup :=
    List.Nodup.sublist hsub h
  calc (m.filter fn).entries
      = jsMapOfList (HashMap.filterLoop fn m [] m.entries) := rfl
    _ = jsMapOfList (filterWithKeptCount fn m m.entries 0) := by
        rw [filterLoop_eq_append]
        simp
    _ = filterWithKeptCount fn m m.entries 0 := jsMapOfList_eq_self hnodup

/-- Witness for `filter_kept_count_position` at the counterexample map. -/
theorem filter_kept_count_position_w :
    (idxMap.store.map Prod.fst).Nodup
    ∧ (idxMap.filter idxPred).entries
        = filterWithKeptCount idxPred idxMap idxMap.entries 0 :=
  ⟨by decide, filter_kept_count_position idxMap idxPred (by decide)⟩

/-- C8. `entries()` yields the stored pairs in insertion order — a key that
is (re)inserted while absent is appended at the end — `keys()` / `values()`
are its two projections, and the concrete scenario holds: building from
`[["a",1],["b",2],["c",3]]`, then `delete("b")`, then `set("d",4)` makes
`keys()` yield exactly `["a","c","d"]`. -/
theorem entries_insertion_order :
    (∀ (κ σ α : Type) [DecidableEq σ] (m : HashMap κ σ α),
        m.keys = m.entries.map Prod.fst ∧ m.values = m.entries.map Prod.snd)
    ∧ (∀ (κ σ α : Type) [DecidableEq σ] (m : HashMap κ σ α) (key : κ)
        (value : α), m.has key = false →
          (m.set key value).entries = m.entries ++ [(m.hash key, value)])
    ∧ ((HashMap.fromEntries [("a", 1), ("b", 2), ("c", 3)] "unknown").delete
          "b").map (fun m1 => (m1.set "d" 4).keys) = .ok ["a", "c", "d"] := by
  refine ⟨?_, ?_, rfl⟩
  · intro κ σ α inst m
    exact ⟨rfl, rfl⟩
  · intro κ σ α inst m key value h
    have hnone : jsFind m.store (m.hash key) = none := by
      have hs : (jsFind m.store (m.hash key)).isSome = false := h
      cases hfind : jsFind m.store (m.hash key) with
      | none => rfl
      | some v => rw [hfind] at hs; simp at hs
    simp [HashMap.set, HashMap.entries, jsSet_of_find_none _ hnone]

/-- Witness for the universally quantified part of
`entries_insertion_order`, at a concrete map and a key not present. -/
theorem entries_insertion_order_w :
    smallHM.has 3 = false
    ∧ (smallHM.set 3 7).entries = smallHM.entries ++ [(smallHM.hash 3, 7)] :=
  ⟨by rfl, entries_insertion_order.2.1 Nat Nat Nat smallHM 3 7 (by rfl)⟩

/-- C9. The internal store never holds two entries with the same storage
key: every constructed store has pairwise-distinct storage keys and `set`
preserves that; `set` on an already-present storage key overwrites the
value leaving the entry count unchanged; and `fromCustomEntries` of a
sequence containing duplicate storage keys keeps the later pair's value
(`lastOccurrenceValue` is the spec's "the later pair's value wins"). -/
theorem storage_key_uniqueness :
    (∀ (κ σ α : Type) [DecidableEq σ] (entries : List (κ × α))
        (hash : κ → σ) (name : String),
        ((HashMap.fromCustomEntries entries hash name).store.map
          Prod.fst).Nodup)
    ∧ (∀ (κ σ α : Type) [DecidableEq σ] (m : HashMap κ σ α) (key : κ)
        (value : α), (m.store.map Prod.fst).Nodup →
          ((m.set key value).store.map Prod.fst).Nodup)
    ∧ (∀ (κ σ α : Type) [DecidableEq σ] (m : HashMap κ σ α) (key : κ)
        (value : α), m.has key = true →
          (m.set key value).store.length = m.store.length
          ∧ jsFind (m.set key value).store (m.hash key) = some value)
    ∧ (∀ (κ σ α : Type) [DecidableEq σ] (entries : List (κ × α))
        (hash : κ → σ) (name : String) (sk : σ),
        jsFind (HashMap.fromCustomEntries entries hash name).store sk
          = lastOccurrenceValue (entries.map (fun p => (hash p.1, p.2))) sk) := by
  refine ⟨?_, ?_, ?_, ?_⟩
  · intro κ σ α inst entries hash name
    exact jsMapOfList_nodup _
  · intro κ σ α inst m key value h
    exact jsSet_nodup _ _ h
  · intro κ σ α inst m key value h
    exact ⟨jsSet_length_of_find_some _ h, jsFind_jsSet_self _ _⟩
  · intro κ σ α inst entries hash name sk
    exact jsFind_jsMapOfList

/-- Witness for the hypotheses of `storage_key_uniqueness` at a concrete
map with key `1` present. -/
theorem storage_key_uniqueness_w :
    smallHM.has 1 = true
    ∧ (smallHM.set 1 5).store.length = smallHM.store.length
    ∧ (smallHM.store.map Prod.fst).Nodup
    ∧ ((smallHM.set 1 5).store.map Prod.fst).Nodup :=
  ⟨by rfl,
    (storage_key_uniqueness.2.2.1 Nat Nat Nat smallHM 1 5 (by rfl)).1,
    by decide,
    storage_key_uniqueness.2.1 Nat Nat Nat smallHM 1 5 (by decide)⟩

/-- The frame property claimed for a derivation: the derived object's store
is a different `Map` object (only `hash` and `name` are shared), the
derivation leaves the original's entries unchanged, mutating the derived
map (`set`, `deleteIfExists`, `clear`) leaves the original's entries
unchanged, and mutating the original leaves the derived map's entries
unchanged. -/
def DisjointDerivation {κ σ α : Type} [DecidableEq σ] (h : Heap σ α)
    (m : HashMapRef κ σ α) (r : HashMapRef κ σ α × Heap σ α) : Prop :=
  r.1.store ≠ m.store
  ∧ r.1.hash = m.hash
  ∧ r.1.name = m.name
  ∧ r.2.mem m.store = h.mem m.store
  ∧ (∀ key value, (r.1.setRef r.2 key value).mem m.store
      = r.2.mem m.store)
  ∧ (∀ key, ((r.1.deleteIfExistsRef r.2 key).2).mem m.store
      = r.2.mem m.store)
  ∧ ((r.1.clearRef r.2).mem m.store = r.2.mem m.store)
  ∧ (∀ key value, (m.setRef r.2 key value).mem r.1.store
      = r.2.mem r.1.store)
  ∧ (∀ key, ((m.deleteIfExistsRef r.2 key).2).mem r.1.store
      = r.2.mem r.1.store)
  ∧ ((m.clearRef r.2).mem r.1.store = r.2.mem r.1.store)

section HeapFrame

variable {κ σ α : Type} [DecidableEq σ]

theorem setRef_frame (h : Heap σ α) (m : HashMapRef κ σ α) (key : κ)
    (value : α) {b : Nat} (hb : b ≠ m.store) :
    (m.setRef h key value).mem b = h.mem b := by
  simp [HashMapRef.setRef, Heap.write, hb]

omit [DecidableEq σ] in
theorem clearRef_frame (h : Heap σ α) (m : HashMapRef κ σ α) {b : Nat}
    (hb : b ≠ m.store) : (m.clearRef h).mem b = h.mem b := by
  simp [HashMapRef.clearRef, Heap.write, hb]

theorem deleteIfExistsRef_frame (h : Heap σ α) (m : HashMapRef κ σ α)
    (key : κ) {b : Nat} (hb : b ≠ m.store) :
    ((m.deleteIfExistsRef h key).2).mem b = h.mem b := by
  by_cases hc : (jsFind (h.mem m.store) (m.hash key)).isSome
  · simp [HashMapRef.deleteIfExistsRef, hc, Heap.write, hb]
  · simp [HashMapRef.deleteIfExistsRef, hc]

theorem disjoint_of_fresh (h : Heap σ α) (m : HashMapRef κ σ α)
    (l : List (σ × α)) (hv : m.valid h) :
    DisjointDerivation h m
      (⟨m.hash, (h.alloc l).1, m.name⟩, (h.alloc l).2) := by
  have hvne : m.store ≠ h.next := Nat.ne_of_lt hv
  refine ⟨Ne.symm hvne, rfl, rfl, ?_, ?_, ?_, ?_, ?_, ?_, ?_⟩
  · simp [Heap.alloc, hvne]
  · intro key value
    exact setRef_frame _ _ _ _ hvne
  · intro key
    exact deleteIfExistsRef_frame _ _ _ hvne
  · exact clearRef_frame _ _ hvne
  · intro key value
    exact setRef_frame _ _ _ _ (Ne.symm hvne)
  · intro key
    exact deleteIfExistsRef_frame _ _ _ (Ne.symm hvne)
  · exact clearRef_frame _ _ (Ne.symm hvne)

end HeapFrame

/-- C10. `filter` and `map` build the derived object around a freshly
allocated `Map` (`new Map(entries)`), sharing only the `hash` function and
the instance `name`: the derived store address differs from the
receiver's, the derivation leaves the receiver's entries unchanged, and
every mutation (`set`, `deleteIfExists`, `clear`) performed through either
object leaves the other object's entries unchanged. -/
theorem derivations_use_fresh_store {κ σ α : Type} [DecidableEq σ]
    (h : Heap σ α) (m : HashMapRef κ σ α)
    (fn : α → σ → Nat → HashMapRef κ σ α → Bool)
    (gn : α → σ → Nat → HashMapRef κ σ α → σ × α) (hv : m.valid h) :
    DisjointDerivation h m (m.filterRef h fn)
    ∧ DisjointDerivation h m (m.mapRef h gn) :=
  ⟨disjoint_of_fresh h m _ hv, disjoint_of_fresh h m _ hv⟩

/-- A one-object heap and a reference into it, for the frame witness. -/
def heapW : Heap Nat Nat :=
  ⟨1, fun a => if a = 0 then [(1, 10)] else []⟩

/-- The `HashMap` object living at address `0` of `heapW`. -/
def refW : HashMapRef Nat Nat Nat :=
  ⟨fun k => k, 0, "unknown"⟩

/-- Witness for `derivations_use_fresh_store` at the one-object heap. -/
theorem derivations_use_fresh_store_w :
    refW.valid heapW
    ∧ (refW.filterRef heapW (fun _ _ _ _ => true)).1.store ≠ refW.store :=
  ⟨by exact Nat.one_pos,
    (derivations_use_fresh_store heapW refW (fun _ _ _ _ => true)
      (fun value key _ _ => (key, value)) (by exact Nat.one_pos)).1.1⟩

end TsStd
